import Mathlib

/-!
Shallow embedding of the Evert Kwok cartoon scraper (src/scraper.js) and
verification of the specification's claims about it.

JavaScript strings are modelled as `List Char`; JavaScript `Date` objects as
`JSDate` records holding the calendar fields (year, 0-based month, day),
normalized the way the `Date(year, month, day)` constructor normalizes its
arguments.  Null/undefined values flowing into `escapeXml` are modelled by the
`JsValue` type.  Fallible operations (HTTP fetch, DOM extraction) are modelled
with `Except`.
-/

/-- The apostrophe character (code 39), kept out of string literals. -/
def aposChar : Char := Char.ofNat 39

/-- JavaScript `\s` character class (whitespace), restricted to the usual
whitespace characters. -/
def jsIsWs (c : Char) : Bool := c.isWhitespace

/-- JavaScript `[a-z]` (ASCII lowercase). -/
def isAsciiLower (c : Char) : Bool := 97 ≤ c.toNat && c.toNat ≤ 122

/-- JavaScript `[A-Z]` (ASCII uppercase). -/
def isAsciiUpper (c : Char) : Bool := 65 ≤ c.toNat && c.toNat ≤ 90

/-- JavaScript `\w` character class: `[A-Za-z0-9_]`. -/
def isWordChar (c : Char) : Bool := isAsciiLower c || isAsciiUpper c || c.isDigit || c = Char.ofNat 95

/-- `String.prototype.includes(pat)`: `pat` occurs as a contiguous substring. -/
def jsIncludes : List Char → List Char → Bool
  | s, pat =>
    pat.isPrefixOf s ||
      match s with
      | [] => false
      | _ :: rest => jsIncludes rest pat

/-- Squeeze runs of space characters to a single space (helper for the
`replace(/\s+/g, ' ')` idiom, applied after mapping every whitespace
character to a plain space). -/
def squeezeSpaces : List Char → List Char
  | [] => []
  | [c] => [c]
  | a :: b :: rest =>
    if a = ' ' && b = ' ' then squeezeSpaces (b :: rest)
    else a :: squeezeSpaces (b :: rest)

/-- JavaScript `replace(/\s+/g, ' ')`: collapse every whitespace run to one
space. -/
def collapseWs (s : List Char) : List Char :=
  squeezeSpaces (s.map (fun c => if jsIsWs c then ' ' else c))

/-- JavaScript `String.prototype.trim()`. -/
def trimWs (s : List Char) : List Char :=
  ((s.dropWhile jsIsWs).reverse.dropWhile jsIsWs).reverse

/-- JavaScript `replace(/([a-z])([A-Z])/g, '$1 $2')`: insert a space at each
lowercase-to-uppercase transition, resuming the scan after each match. -/
def camelSplit : List Char → List Char
  | [] => []
  | [c] => [c]
  | a :: b :: rest =>
    if isAsciiLower a && isAsciiUpper b then a :: ' ' :: b :: camelSplit rest
    else a :: camelSplit (b :: rest)

/-- JavaScript `replace(/^./, c => c.toUpperCase())`. -/
def capitalizeFirst : List Char → List Char
  | [] => []
  | c :: rest => c.toUpper :: rest

/-- The segment after the last `/` (JavaScript `url.split('/').pop()`). -/
def lastSlashSeg (s : List Char) : List Char :=
  (s.reverse.takeWhile (fun c => c ≠ '/')).reverse

/-- The part before the first `.` (JavaScript `s.split('.')[0]`). -/
def beforeFirstDot (s : List Char) : List Char :=
  s.takeWhile (fun c => c ≠ '.')

/-- `parseInt` on an all-digit capture: fold the decimal digits. -/
def parseDigits (s : List Char) : Int :=
  Int.ofNat (s.foldl (fun acc c => acc * 10 + c.toNat - '0'.toNat) 0)

/-- Decimal digit string of a natural number (JavaScript `String(n)`). -/
def natChars (n : Nat) : List Char := Nat.toDigits 10 n

/-- Decimal digit string of an integer. -/
def intChars (i : Int) : List Char :=
  if i < 0 then '-' :: natChars i.natAbs else natChars i.toNat

/-- JavaScript `String(n).padStart(2, '0')`. -/
def pad2 (i : Int) : List Char :=
  let s := intChars i
  if s.length < 2 then '0' :: s else s

/-- JavaScript `Date` value, reduced to the calendar fields the scraper uses:
`getFullYear()`, `getMonth()` (0-based) and `getDate()`. -/
structure JSDate where
  year : Int
  month : Int
  day : Int
deriving DecidableEq, Repr

/-- Whether `y` is a leap year of the proleptic Gregorian calendar used by
JavaScript `Date`. -/
def isLeapYear (y : Int) : Bool :=
  (y % 4 = 0 && y % 100 ≠ 0) || y % 400 = 0

/-- Length of 0-based month `m` of year `y`. -/
def daysInMonth (y m : Int) : Int :=
  if m = 1 then (if isLeapYear y then 29 else 28)
  else if m = 3 || m = 5 || m = 8 || m = 10 then 30
  else 31

/-- Day-of-month normalization performed by the JavaScript `Date` machinery:
roll an out-of-range day backward or forward through the calendar.  The fuel
bounds the number of month steps; all call sites stay far below it. -/
def normDays : Nat → Int → Int → Int → JSDate
  | 0, y, m, d => ⟨y, m, d⟩
  | fuel + 1, y, m, d =>
    if d < 1 then
      let y2 := if m = 0 then y - 1 else y
      let m2 := if m = 0 then 11 else m - 1
      normDays fuel y2 m2 (d + daysInMonth y2 m2)
    else if daysInMonth y m < d then
      let y2 := if m = 11 then y + 1 else y
      let m2 := if m = 11 then 0 else m + 1
      normDays fuel y2 m2 (d - daysInMonth y m)
    else ⟨y, m, d⟩

/-- Fuel for `normDays`; parsed day fields are at most two digits, so at most
a handful of month steps are ever taken. -/
def normFuel : Nat := 40

/-- JavaScript `Date` field normalization: fold the month into the year with
floor division, then normalize the day through the calendar. -/
def jsNorm (y m d : Int) : JSDate :=
  let total := y * 12 + m
  normDays normFuel (total / 12) (total % 12) d

/-- JavaScript `new Date(year, month, day)`: years 0–99 are interpreted as
1900+year, then the fields are normalized. -/
def jsMakeDate (y m d : Int) : JSDate :=
  jsNorm (if 0 ≤ y && y ≤ 99 then y + 1900 else y) m d

/-- JavaScript `date.setMonth(m)`. -/
def jsSetMonth (date : JSDate) (m : Int) : JSDate :=
  jsNorm date.year m date.day

/-- JavaScript `date.setDate(d)`. -/
def jsSetDate (date : JSDate) (d : Int) : JSDate :=
  jsNorm date.year date.month d

/-- Strictly monotone encoding of a normalized calendar date; comparing keys
is equivalent to comparing the underlying `Date` timestamps for the dates the
scraper builds. -/
def dateKey (d : JSDate) : Int :=
  (d.year * 12 + d.month) * 32 + d.day

/-- One scraped content item (the `cartoon` record built in
`scrapeCartoons`). -/
structure Cartoon where
  url : List Char
  title : List Char
  date : JSDate
  description : List Char
  filename : List Char
deriving DecidableEq

/-- A JavaScript value flowing into `escapeXml`: `null`, `undefined`, or a
string. -/
inductive JsValue where
  | null
  | undef
  | str (s : List Char)
deriving DecidableEq

/-- JavaScript `s.replace(/c/g, r)` for a single-character pattern `c`. -/
def replaceChar (c : Char) (r : List Char) : List Char → List Char
  | [] => []
  | x :: xs => (if x = c then r else [x]) ++ replaceChar c r xs

/-- The five sequential global replacements of `escapeXml`, in source order:
`&` first, then `<`, `>`, `"`, and the apostrophe. -/
def escapeChars (s : List Char) : List Char :=
  replaceChar aposChar "&apos;".toList
    (replaceChar '"' "&quot;".toList
      (replaceChar '>' "&gt;".toList
        (replaceChar '<' "&lt;".toList
          (replaceChar '&' "&amp;".toList s))))

/-- `escapeXml(str)`: falsy input (`null`, `undefined`, the empty string)
yields the empty string, otherwise the five entity replacements are applied. -/
def escapeXml : JsValue → List Char
  | .null => []
  | .undef => []
  | .str s => if s.isEmpty then [] else escapeChars s

/-- The single-character entity table realized by one pass of `escapeXml`. -/
def xmlEntity (c : Char) : List Char :=
  if c = '&' then "&amp;".toList
  else if c = '<' then "&lt;".toList
  else if c = '>' then "&gt;".toList
  else if c = '"' then "&quot;".toList
  else if c = aposChar then "&apos;".toList
  else [c]

example : escapeXml (.str "&".toList) = "&amp;".toList := by decide
example : escapeXml (.str "&amp;".toList) = "&amp;amp;".toList := by decide
example : collapseWs "a   b".toList = "a b".toList := by decide
example : camelSplit "aBcD".toList = "a Bc D".toList := by decide
example : jsMakeDate 2020 12 5 = ⟨2021, 0, 5⟩ := by decide
example : jsMakeDate 2020 1 30 = ⟨2020, 2, 1⟩ := by decide
example : jsMakeDate 20 0 1 = ⟨1920, 0, 1⟩ := by decide
example : jsSetMonth ⟨2026, 7, 31⟩ 5 = ⟨2026, 6, 1⟩ := by decide

/-- `cleanTitle(title)`: normalize whitespace, keep only word characters,
whitespace and basic punctuation, trim, and cut at 80 characters. -/
def cleanTitle (title : List Char) : List Char :=
  (trimWs ((collapseWs title).filter
    (fun c => isWordChar c || jsIsWs c || c = '-' || c = '.' || c = ',' || c = '!' || c = '?'))).take 80

/-- Acceptance test applied to each title candidate in `extractTitle`. -/
def acceptTitle (c : List Char) : Bool :=
  decide (3 < c.length) && decide (c.length < 100) &&
    !(c.map Char.toLower == "cartoon".toList) &&
    !(!c.isEmpty && c.all Char.isDigit) &&
    !(jsIncludes c "wp-content".toList)

/-- `generateTitleFromUrl(url)`: derive a title from the URL's filename.
`url` is the raw `src` attribute (`none` models an absent attribute). -/
def generateTitleFromUrl (url : Option (List Char)) : List Char :=
  match url with
  | none => "Cartoon".toList
  | some u =>
    if u.isEmpty then "Cartoon".toList
    else
      let filename := beforeFirstDot (lastSlashSeg u)
      let t :=
        (capitalizeFirst (trimWs (collapseWs (camelSplit
          ((filename.dropWhile Char.isDigit).map
            (fun c => if c = '_' || c = '-' then ' ' else c)))))).take 50
      if t.isEmpty then "Educational Cartoon".toList else t

/-- Walk the title candidates in preference order, returning the first
accepted one, cleaned. -/
def pickTitle (src : Option (List Char)) : List (List Char) → List Char
  | [] => generateTitleFromUrl src
  | c :: cs => if acceptTitle c then cleanTitle c else pickTitle src cs

/-- `extractTitle($, element)`: the DOM lookups (alt, title, caption variants,
headings) are supplied as the already-extracted `candidates` texts, with
`filter(Boolean)` modelled by dropping empty strings; `src` is the element's
`src` attribute used by the URL fallback. -/
def extractTitle (candidates : List (List Char)) (src : Option (List Char)) : List Char :=
  pickTitle src (candidates.filter (fun c => !c.isEmpty))

/-- Acceptance test applied to each description candidate. -/
def acceptDescription (c : List Char) : Bool :=
  decide (10 < c.length) && decide (c.length < 500) &&
    !(jsIncludes (c.map Char.toLower) "image".toList) &&
    !(jsIncludes c "wp-content".toList)

/-- The templated fallback sentence of `extractDescription`, embedding the
lowercased derived title. -/
def descriptionTemplate (title : List Char) : List Char :=
  "Educational cartoon by Evert Kwok featuring ".toList ++ title.map Char.toLower ++
    ". Making complex scientific and mathematical concepts accessible through visual humor and clever illustrations.".toList

/-- Walk the description candidates, truncating an accepted one at 200
characters with a trailing ellipsis marker. -/
def pickDescription (title : List Char) : List (List Char) → List Char
  | [] => descriptionTemplate title
  | c :: cs =>
    if acceptDescription c then c.take 200 ++ (if decide (200 < c.length) then "...".toList else [])
    else pickDescription title cs

/-- `extractDescription($, element)`: caption/attribute/paragraph texts are
supplied as `candidates`; the fallback recomputes the title from
`titleCandidates` and `src` exactly as the source re-invokes
`extractTitle`. -/
def extractDescription (candidates : List (List Char))
    (titleCandidates : List (List Char)) (src : Option (List Char)) : List Char :=
  pickDescription (extractTitle titleCandidates src)
    (candidates.filter (fun c => !c.isEmpty))

/-- `removeDuplicates(cartoons)`: keep a cartoon only if its `url` was not
seen before (the `seen : Set` of the source, threaded explicitly). -/
def removeDuplicatesAux (seen : List (List Char)) : List Cartoon → List Cartoon
  | [] => []
  | c :: cs =>
    if c.url ∈ seen then removeDuplicatesAux seen cs
    else c :: removeDuplicatesAux (c.url :: seen) cs

/-- `removeDuplicates(cartoons)` with an initially empty seen-set. -/
def removeDuplicates (cartoons : List Cartoon) : List Cartoon :=
  removeDuplicatesAux [] cartoons

/-- Comparator relation of `uniqueCartoons.sort((a, b) => b.date - a.date)`:
`a` may precede `b` when `b`'s timestamp does not exceed `a`'s.  JavaScript's
sort is stable, so the stable `insertionSort` realizes the same output. -/
def laterDate (a b : Cartoon) : Prop := dateKey b.date ≤ dateKey a.date

instance : DecidableRel laterDate := fun _ _ => Int.decLe _ _

instance : IsTotal Cartoon laterDate := ⟨fun a b => Int.le_total (dateKey b.date) (dateKey a.date)⟩

instance : IsTrans Cartoon laterDate := ⟨fun _ _ _ h1 h2 => le_trans h2 h1⟩

/-- `cartoons.sort((a, b) => b.date - a.date)`. -/
def sortCartoons (cartoons : List Cartoon) : List Cartoon :=
  cartoons.insertionSort laterDate

/-- Lines 133–135 of `scrapeCartoons`: deduplicate, then sort descending by
date. -/
def normalizeItems (cartoons : List Cartoon) : List Cartoon :=
  sortCartoons (removeDuplicates cartoons)

example : extractTitle [] (some "quantum-mechanics.jpg".toList) = "Quantum mechanics".toList := by decide
example : cleanTitle "@@@@".toList = [] := by decide
set_option maxRecDepth 8000 in
example : (pickDescription [] [(List.replicate 250 'a')]).length = 203 := by decide

/-- Match exactly `n` decimal digits at the head, returning them and the
rest. -/
def matchDigits : Nat → List Char → Option (List Char × List Char)
  | 0, s => some ([], s)
  | _ + 1, [] => none
  | n + 1, c :: rest =>
    if c.isDigit then (matchDigits n rest).map (fun p => (c :: p.1, p.2)) else none

/-- Anchored `\/(\d{4})\/(\d{2})\/(\d{2})\//`. -/
def matchSlashYmd (s : List Char) : Option (List (List Char)) :=
  match s with
  | '/' :: r1 =>
    match matchDigits 4 r1 with
    | some (y, '/' :: r2) =>
      match matchDigits 2 r2 with
      | some (mo, '/' :: r3) =>
        match matchDigits 2 r3 with
        | some (d, '/' :: _) => some [y, mo, d]
        | _ => none
      | _ => none
    | _ => none
  | _ => none

/-- Anchored `\/(\d{4})\/(\d{2})\//`. -/
def matchSlashYm (s : List Char) : Option (List (List Char)) :=
  match s with
  | '/' :: r1 =>
    match matchDigits 4 r1 with
    | some (y, '/' :: r2) =>
      match matchDigits 2 r2 with
      | some (mo, '/' :: _) => some [y, mo]
      | _ => none
    | _ => none
  | _ => none

/-- Anchored `\/(\d{4})(\d{2})(\d{2})(?:_|\-|\.)?/`; the optional trailing
separator never rejects, so it does not constrain the match. -/
def matchSlashCompact (s : List Char) : Option (List (List Char)) :=
  match s with
  | '/' :: r1 =>
    match matchDigits 4 r1 with
    | some (y, r2) =>
      match matchDigits 2 r2 with
      | some (mo, r3) =>
        match matchDigits 2 r3 with
        | some (d, _) => some [y, mo, d]
        | none => none
      | none => none
    | none => none
  | _ => none

/-- Anchored `(\d{4})-(\d{2})-(\d{2})`. -/
def matchHyphenYmd (s : List Char) : Option (List (List Char)) :=
  match matchDigits 4 s with
  | some (y, '-' :: r1) =>
    match matchDigits 2 r1 with
    | some (mo, '-' :: r2) =>
      match matchDigits 2 r2 with
      | some (d, _) => some [y, mo, d]
      | none => none
    | _ => none
  | _ => none

/-- Anchored `(\d{4})_(\d{2})_(\d{2})`. -/
def matchUnderscoreYmd (s : List Char) : Option (List (List Char)) :=
  match matchDigits 4 s with
  | some (y, '_' :: r1) =>
    match matchDigits 2 r1 with
    | some (mo, '_' :: r2) =>
      match matchDigits 2 r2 with
      | some (d, _) => some [y, mo, d]
      | none => none
    | _ => none
  | _ => none

/-- Anchored `(\d{8})(?![\d])`: eight digits not followed by another digit. -/
def matchEightDigits (s : List Char) : Option (List (List Char)) :=
  match matchDigits 8 s with
  | some (d8, rest) =>
    match rest with
    | [] => some [d8]
    | c :: _ => if c.isDigit then none else some [d8]
  | none => none

/-- Anchored `\/(\d{4})\//`. -/
def matchSlashYear (s : List Char) : Option (List (List Char)) :=
  match s with
  | '/' :: r1 =>
    match matchDigits 4 r1 with
    | some (y, '/' :: _) => some [y]
    | _ => none
  | _ => none

/-- `url.match(regex)` for a non-global regex: return the captures of the
leftmost position where the anchored matcher succeeds. -/
def scanMatch (m : List Char → Option (List (List Char))) : List Char → Option (List (List Char))
  | [] => m []
  | c :: rest =>
    match m (c :: rest) with
    | some r => some r
    | none => scanMatch m rest

/-- The `format` tags of the date patterns. -/
inductive DateFormat where
  | ymd
  | ym
  | y
  | yyyymmdd
deriving DecidableEq

/-- One entry of the `patterns` array of `extractDateFromUrl`. -/
structure DatePattern where
  regex : List Char → Option (List (List Char))
  format : DateFormat
  specificity : Nat

/-- The `switch (pattern.format)` block: parse the captures into the
`(year, month, day)` triple handed to `new Date` (month made 0-based). -/
def convertFormat : DateFormat → List (List Char) → Int × Int × Int
  | .ymd, caps =>
    (parseDigits (caps.getD 0 []), parseDigits (caps.getD 1 []) - 1, parseDigits (caps.getD 2 []))
  | .ym, caps => (parseDigits (caps.getD 0 []), parseDigits (caps.getD 1 []) - 1, 1)
  | .y, caps => (parseDigits (caps.getD 0 []), 0, 1)
  | .yyyymmdd, caps =>
    let s := caps.getD 0 []
    (parseDigits (s.take 4), parseDigits ((s.drop 4).take 2) - 1, parseDigits ((s.drop 6).take 2))

/-- The reasonableness validation on a constructed date: the constructed year
and month must round-trip to the parsed ones and the year must lie in
`[2000, currentYear + 1]`. -/
def validDate (date : JSDate) (year month : Int) (now : JSDate) : Bool :=
  date.year == year && date.month == month &&
    decide (2000 ≤ date.year) && decide (date.year ≤ now.year + 1)

/-- Source-order `patterns` array of `extractDateFromUrl`. -/
def pSlashYmd : DatePattern := ⟨matchSlashYmd, .ymd, 3⟩

/-- Pattern `\/(\d{4})\/(\d{2})\//` with format `ym`, specificity 2. -/
def pSlashYm : DatePattern := ⟨matchSlashYm, .ym, 2⟩

/-- Pattern `\/(\d{4})(\d{2})(\d{2})(?:_|\-|\.)?/` with format `ymd`. -/
def pSlashCompact : DatePattern := ⟨matchSlashCompact, .ymd, 3⟩

/-- Pattern `(\d{4})-(\d{2})-(\d{2})` with format `ymd`. -/
def pHyphenYmd : DatePattern := ⟨matchHyphenYmd, .ymd, 3⟩

/-- Pattern `(\d{4})_(\d{2})_(\d{2})` with format `ymd`. -/
def pUnderscoreYmd : DatePattern := ⟨matchUnderscoreYmd, .ymd, 3⟩

/-- Pattern `(\d{8})(?![\d])` with format `yyyymmdd`. -/
def pEightDigits : DatePattern := ⟨matchEightDigits, .yyyymmdd, 3⟩

/-- Pattern `\/(\d{4})\//` with format `y`, specificity 1. -/
def pSlashYear : DatePattern := ⟨matchSlashYear, .y, 1⟩

/-- The `patterns` array in its source order. -/
def patterns : List DatePattern :=
  [pSlashYmd, pSlashYm, pSlashCompact, pHyphenYmd, pUnderscoreYmd, pEightDigits, pSlashYear]

/-- `patterns.sort((a, b) => b.specificity - a.specificity)`: a stable
descending sort on specificity. -/
def sortedPatterns : List DatePattern :=
  patterns.insertionSort (fun a b => b.specificity ≤ a.specificity)

/-- The `for (const pattern of patterns)` loop: the first pattern that
matches somewhere in the URL and survives validation supplies the date;
otherwise fall through to the current date. -/
def tryPatterns (url : List Char) (now : JSDate) : List DatePattern → JSDate
  | [] => now
  | p :: ps =>
    match scanMatch p.regex url with
    | some caps =>
      let (y, m, d) := convertFormat p.format caps
      let date := jsMakeDate y m d
      if validDate date y m now then date else tryPatterns url now ps
    | none => tryPatterns url now ps

/-- `extractDateFromUrl(url)`, with the processing-time clock passed as
`now`. -/
def extractDateFromUrl (url : List Char) (now : JSDate) : JSDate :=
  tryPatterns url now sortedPatterns

/-- The spec's ordering of the date patterns: strictly by decreasing
specificity, ties in source order. -/
def specOrderedPatterns : List DatePattern :=
  [pSlashYmd, pSlashCompact, pHyphenYmd, pUnderscoreYmd, pEightDigits, pSlashYm, pSlashYear]

/-- Stated from the spec's words: the first pattern whose match yields a
valid date wins. -/
def firstValidDate (url : List Char) (now : JSDate) : List DatePattern → Option JSDate
  | [] => none
  | p :: ps =>
    match scanMatch p.regex url with
    | some caps =>
      let (y, m, d) := convertFormat p.format caps
      let date := jsMakeDate y m d
      if validDate date y m now then some date else firstValidDate url now ps
    | none => firstValidDate url now ps

/-- Date derivation as the spec words it: decreasing-specificity order, first
valid date wins, current date as fallback. -/
def extractDateSpec (url : List Char) (now : JSDate) : JSDate :=
  (firstValidDate url now specOrderedPatterns).getD now

/-- One entry of the hardcoded `demos` array in `getDemoData`. -/
structure DemoEntry where
  title : List Char
  description : List Char
  filename : List Char
  monthsAgo : Int
deriving DecidableEq

/-- Title of the relativity demo entry (contains an apostrophe). -/
def einsteinTitle : List Char :=
  "Einstein".toList ++ [aposChar] ++ "s Theory of Relativity".toList

/-- Description of the relativity demo entry (contains an apostrophe). -/
def einsteinDescription : List Char :=
  "Breaking down Einstein".toList ++ [aposChar] ++
    "s groundbreaking theories of special and general relativity using visual humor and analogies.".toList

/-- The hardcoded `demos` array of `getDemoData`, in source order. -/
def demos : List DemoEntry :=
  [⟨"Quantum Mechanics Made Simple".toList,
    "A humorous exploration of quantum physics concepts, including superposition and wave-particle duality, explained through clever visual metaphors.".toList,
    "quantum-mechanics-humor.jpg".toList, 2⟩,
   ⟨"Calculus and Derivatives Explained".toList,
    "Understanding the fundamental concepts of calculus through entertaining illustrations that make complex mathematical ideas accessible.".toList,
    "calculus-derivatives.jpg".toList, 5⟩,
   ⟨"Chemical Reactions Adventure".toList,
    "Exploring the fascinating world of chemistry and molecular interactions through engaging cartoon storytelling.".toList,
    "chemistry-reactions.jpg".toList, 8⟩,
   ⟨einsteinTitle, einsteinDescription, "einstein-relativity.jpg".toList, 12⟩,
   ⟨"Pythagoras Theorem Discovery".toList,
    "The classic story of Pythagoras and his famous theorem, illustrated with mathematical precision and comedic timing.".toList,
    "538piethagoras.jpg".toList, 48⟩,
   ⟨"DNA Structure and Genetics".toList,
    "Unraveling the mysteries of DNA, genetic inheritance, and molecular biology through entertaining visual narratives.".toList,
    "dna-genetics.jpg".toList, 15⟩,
   ⟨"Physics of Light and Optics".toList,
    "Illuminating the principles of light, reflection, refraction, and optical phenomena through clever cartoon illustrations.".toList,
    "physics-light-optics.jpg".toList, 7⟩,
   ⟨"Statistics and Probability Fun".toList,
    "Making statistics and probability theory engaging through humorous examples and visual representations of mathematical concepts.".toList,
    "statistics-probability.jpg".toList, 3⟩]

/-- The synthesized upload URL of a demo item: year and zero-padded 1-based
month of the computed date, then the fixed filename. -/
def demoUrl (date : JSDate) (filename : List Char) : List Char :=
  "https://www.evertkwok.nl/wp-content/uploads/".toList ++
    intChars date.year ++ '/' :: pad2 (date.month + 1) ++ '/' :: filename

/-- `getDemoData()`: for each demo entry, start from the current date, shift
the month back by `monthsAgo` via `setMonth`, replace the day by the bounded
random draw (`rnd i` models `Math.floor(Math.random() * 28)`, so the day is
`rnd i + 1`), then sort the items descending by date. -/
def getDemoData (now : JSDate) (rnd : Nat → Nat) : List Cartoon :=
  sortCartoons (demos.enum.map (fun p =>
    let demo := p.2
    let date1 := jsSetMonth now (now.month - demo.monthsAgo)
    let date := jsSetDate date1 ((rnd p.1 : Int) + 1)
    { url := demoUrl date demo.filename
      title := demo.title
      date := date
      description := demo.description
      filename := demo.filename }))

/-- `this.maxRetries`. -/
def maxRetries : Nat := 3

/-- `fetchWithRetry(url, attempt)`: `attempts k` is the outcome of the `k`-th
HTTP attempt.  On failure the call recurses with `attempt + 1` while
`attempt < maxRetries`, and otherwise rethrows the final error.  The fuel
argument makes the recursion structural; `maxRetries` fuel is enough. -/
def fetchWithRetry (attempts : Nat → Except Nat (List Char)) : Nat → Nat → Except Nat (List Char)
  | 0, attempt => attempts attempt
  | fuel + 1, attempt =>
    match attempts attempt with
    | .ok r => .ok r
    | .error e => if attempt < maxRetries then fetchWithRetry attempts fuel (attempt + 1) else .error e

/-- `scrapeCartoons()`: fetch the page, extract candidate cartoons, then
deduplicate and sort; any error raised by fetching (after its retries) or by
candidate extraction is caught and replaced by the demo data.  The function
is total: no error escapes the scraping stage. -/
def scrapeCartoons (attempts : Nat → Except Nat (List Char))
    (extractCandidates : List Char → Except Nat (List Cartoon))
    (now : JSDate) (rnd : Nat → Nat) : List Cartoon :=
  match fetchWithRetry attempts maxRetries 1 with
  | .error _ => getDemoData now rnd
  | .ok html =>
    match extractCandidates html with
    | .error _ => getDemoData now rnd
    | .ok cartoons => normalizeItems cartoons

example :
    extractDateFromUrl "https://www.evertkwok.nl/2019/uploads/2020/05/17/img.jpg".toList
      ⟨2026, 9, 11⟩ = ⟨2020, 4, 17⟩ := by decide
example :
    extractDateFromUrl "https://www.evertkwok.nl/wp-content/uploads/2020/13/05/a.jpg".toList
      ⟨2026, 9, 11⟩ = ⟨2020, 0, 1⟩ := by decide
example :
    extractDateFromUrl "https://www.evertkwok.nl/wp-content/uploads/1990/05/17/a.jpg".toList
      ⟨2026, 9, 11⟩ = ⟨2026, 9, 11⟩ := by decide
example :
    ((getDemoData ⟨2026, 7, 31⟩ (fun _ => 4)).head?.map (fun c => c.date)) =
      some ⟨2026, 6, 5⟩ := by decide

theorem rdAux_mem_url (l : List Cartoon) :
    ∀ (seen : List (List Char)) (u : List Char),
      u ∈ (removeDuplicatesAux seen l).map (fun c => c.url) ↔
        u ∉ seen ∧ u ∈ l.map (fun c => c.url) := by
  induction l with
  | nil => intro seen u; simp [removeDuplicatesAux]
  | cons c cs ih =>
    intro seen u
    by_cases hc : c.url ∈ seen
    · simp only [removeDuplicatesAux, if_pos hc, ih, List.map_cons, List.mem_cons]
      constructor
      · rintro ⟨h1, h2⟩; exact ⟨h1, Or.inr h2⟩
      · rintro ⟨h1, h2 | h2⟩
        · exact absurd (h2 ▸ hc) h1
        · exact ⟨h1, h2⟩
    · simp only [removeDuplicatesAux, if_neg hc, List.map_cons, List.mem_cons, ih]
      constructor
      · rintro (rfl | ⟨h1, h2⟩)
        · exact ⟨hc, Or.inl rfl⟩
        · refine ⟨fun hs => h1 (Or.inr hs), Or.inr h2⟩
      · rintro ⟨h1, rfl | h2⟩
        · exact Or.inl rfl
        · by_cases he : u = c.url
          · exact Or.inl he
          · exact Or.inr ⟨fun hs => hs.elim he h1, h2⟩

theorem rdAux_nodup (l : List Cartoon) :
    ∀ seen : List (List Char),
      ((removeDuplicatesAux seen l).map (fun c => c.url)).Nodup := by
  induction l with
  | nil => intro seen; simp [removeDuplicatesAux]
  | cons c cs ih =>
    intro seen
    by_cases hc : c.url ∈ seen
    · simpa [removeDuplicatesAux, if_pos hc] using ih seen
    · simp only [removeDuplicatesAux, if_neg hc, List.map_cons, List.nodup_cons]
      refine ⟨fun hmem => ?_, ih _⟩
      exact ((rdAux_mem_url cs _ _).mp hmem).1 (List.mem_cons_self _ _)

theorem rdAux_find (l : List Cartoon) :
    ∀ (seen : List (List Char)) (c : Cartoon), c ∈ removeDuplicatesAux seen l →
      c.url ∉ seen ∧ l.find? (fun x => x.url == c.url) = some c := by
  induction l with
  | nil => intro seen c h; simp [removeDuplicatesAux] at h
  | cons a as ih =>
    intro seen c hmem
    by_cases ha : a.url ∈ seen
    · rw [removeDuplicatesAux, if_pos ha] at hmem
      obtain ⟨h1, h2⟩ := ih seen c hmem
      have hne : (a.url == c.url) = false := by
        simp only [beq_eq_false_iff_ne, ne_eq]
        intro he; exact h1 (he ▸ ha)
      refine ⟨h1, ?_⟩
      rw [List.find?_cons, hne]; exact h2
    · rw [removeDuplicatesAux, if_neg ha] at hmem
      rcases List.mem_cons.mp hmem with rfl | htail
      · refine ⟨ha, ?_⟩
        rw [List.find?_cons, beq_self_eq_true]
      · obtain ⟨h1, h2⟩ := ih _ c htail
        have hcs : c.url ∉ seen := fun hs => h1 (List.mem_cons.mpr (Or.inr hs))
        have hne : (a.url == c.url) = false := by
          simp only [beq_eq_false_iff_ne, ne_eq]
          intro he
          exact h1 (by rw [he]; exact List.mem_cons_self _ _)
        refine ⟨hcs, ?_⟩
        rw [List.find?_cons, hne]; exact h2

theorem filter_orderedInsert_key (k : Int) (a : Cartoon) (l : List Cartoon) :
    (l.orderedInsert laterDate a).filter (fun c => dateKey c.date == k) =
      if dateKey a.date = k then a :: l.filter (fun c => dateKey c.date == k)
      else l.filter (fun c => dateKey c.date == k) := by
  induction l with
  | nil =>
    by_cases hk : dateKey a.date = k <;>
      simp [List.orderedInsert, List.filter_cons, hk]
  | cons b bs ih =>
    by_cases hr : laterDate a b
    · rw [List.orderedInsert, if_pos hr]
      by_cases hk : dateKey a.date = k <;>
        simp [List.filter_cons, hk]
    · rw [List.orderedInsert, if_neg hr]
      have hbgt : dateKey a.date < dateKey b.date := not_le.mp hr
      by_cases hk : dateKey a.date = k
      · have hbk : ¬ dateKey b.date = k := by omega
        simp [List.filter_cons, hbk, ih, hk]
      · by_cases hbk : dateKey b.date = k <;>
          simp [List.filter_cons, hbk, ih, hk]

theorem filter_sortCartoons_key (k : Int) (l : List Cartoon) :
    (sortCartoons l).filter (fun c => dateKey c.date == k) =
      l.filter (fun c => dateKey c.date == k) := by
  induction l with
  | nil => rfl
  | cons a as ih =>
    unfold sortCartoons at ih ⊢
    show ((as.insertionSort laterDate).orderedInsert laterDate a).filter _ = _
    rw [filter_orderedInsert_key]
    by_cases hk : dateKey a.date = k <;> simp [List.filter_cons, hk, ih]

/-- C1: for every candidate list (in particular lists with repeated URLs, or
with items whose distinct raw `src` values resolved to the same absolute URL),
the normalized output has pairwise-distinct `url`s, covers exactly the URLs
of the input, and for each kept item the whole record (metadata included) is
the first item of the input with that `url`. -/
theorem normalizeItems_dedup_first_wins (l : List Cartoon) :
    ((normalizeItems l).map (fun c => c.url)).Nodup ∧
    (∀ u : List Char,
      u ∈ (normalizeItems l).map (fun c => c.url) ↔ u ∈ l.map (fun c => c.url)) ∧
    (∀ c ∈ normalizeItems l, l.find? (fun x => x.url == c.url) = some c) := by
  have hperm : (normalizeItems l).Perm (removeDuplicates l) :=
    List.perm_insertionSort laterDate (removeDuplicates l)
  have hpm : ((normalizeItems l).map (fun c => c.url)).Perm
      ((removeDuplicates l).map (fun c => c.url)) := hperm.map _
  refine ⟨hpm.nodup_iff.mpr (rdAux_nodup l []), fun u => ?_, fun c hc => ?_⟩
  · rw [hpm.mem_iff]
    have := rdAux_mem_url l [] u
    simpa [removeDuplicates] using this
  · exact (rdAux_find l [] c (hperm.mem_iff.mp hc)).2

/-- A first-discovered cartoon. -/
def cartoonA : Cartoon :=
  ⟨"https://www.evertkwok.nl/wp-content/uploads/2020/05/alpha.jpg".toList,
   "Alpha".toList, ⟨2020, 4, 1⟩, "First metadata".toList, "alpha.jpg".toList⟩

/-- A cartoon with a different URL. -/
def cartoonB : Cartoon :=
  ⟨"https://www.evertkwok.nl/wp-content/uploads/2021/06/beta.jpg".toList,
   "Beta".toList, ⟨2021, 5, 1⟩, "Second metadata".toList, "beta.jpg".toList⟩

/-- A later duplicate of `cartoonA`'s URL carrying different metadata. -/
def cartoonADup : Cartoon :=
  ⟨"https://www.evertkwok.nl/wp-content/uploads/2020/05/alpha.jpg".toList,
   "Alpha again".toList, ⟨2022, 0, 1⟩, "Duplicate metadata".toList, "alpha.jpg".toList⟩

theorem normalizeItems_dedup_first_wins_witness :
    [cartoonA, cartoonB, cartoonADup].find? (fun x => x.url == cartoonA.url) = some cartoonA ∧
    ((normalizeItems [cartoonA, cartoonB, cartoonADup]).map (fun c => c.url)).Nodup :=
  ⟨(normalizeItems_dedup_first_wins [cartoonA, cartoonB, cartoonADup]).2.2 cartoonA (by decide),
   (normalizeItems_dedup_first_wins [cartoonA, cartoonB, cartoonADup]).1⟩

/-- C2: after normalization the items are pairwise ordered by descending
date, and for every date key the subsequence of items carrying that key is
exactly the corresponding subsequence of the deduplicated input, i.e. ties
keep their discovery order (the sort is stable). -/
theorem normalizeItems_sorted_stable (l : List Cartoon) :
    (normalizeItems l).Pairwise (fun a b => dateKey b.date ≤ dateKey a.date) ∧
    (∀ k : Int, (normalizeItems l).filter (fun c => dateKey c.date == k) =
      (removeDuplicates l).filter (fun c => dateKey c.date == k)) := by
  exact ⟨List.sorted_insertionSort laterDate (removeDuplicates l),
    fun k => filter_sortCartoons_key k (removeDuplicates l)⟩

theorem tryPatterns_eq_firstValidDate (url : List Char) (now : JSDate) :
    ∀ ps : List DatePattern,
      tryPatterns url now ps = (firstValidDate url now ps).getD now := by
  intro ps
  induction ps with
  | nil => rfl
  | cons p ps ih =>
    cases hscan : scanMatch p.regex url with
    | none =>
      simp only [tryPatterns, firstValidDate, hscan]
      exact ih
    | some caps =>
      rcases hc : convertFormat p.format caps with ⟨y, m, d⟩
      by_cases hv : validDate (jsMakeDate y m d) y m now = true
      · simp [tryPatterns, firstValidDate, hscan, hc, hv]
      · simp [tryPatterns, firstValidDate, hscan, hc, hv, ih]

theorem tryPatterns_year_valid (url : List Char) (now : JSDate) :
    ∀ ps : List DatePattern,
      tryPatterns url now ps = now ∨
        (2000 ≤ (tryPatterns url now ps).year ∧
          (tryPatterns url now ps).year ≤ now.year + 1) := by
  intro ps
  induction ps with
  | nil => exact Or.inl rfl
  | cons p ps ih =>
    cases hscan : scanMatch p.regex url with
    | none =>
      simpa only [tryPatterns, hscan] using ih
    | some caps =>
      rcases hc : convertFormat p.format caps with ⟨y, m, d⟩
      by_cases hv : validDate (jsMakeDate y m d) y m now = true
      · right
        have hprops := hv
        simp only [validDate, Bool.and_eq_true, beq_iff_eq, decide_eq_true_eq] at hprops
        obtain ⟨⟨⟨_, _⟩, h3⟩, h4⟩ := hprops
        simp only [tryPatterns, hscan, hc, hv, if_true]
        exact ⟨h3, h4⟩
      · simp only [tryPatterns, hscan, hc]
        rw [if_neg (by simp [hv])]
        exact ih

/-- Clock used for the concrete date-extraction scenarios. -/
def nowRun : JSDate := ⟨2026, 9, 11⟩

/-- URL with a bare `/2019/` segment and a full `/2020/05/17/` segment. -/
def urlFullAndBare : List Char :=
  "https://www.evertkwok.nl/2019/uploads/2020/05/17/img.jpg".toList

/-- URL whose most specific date tokens carry the impossible month 13. -/
def urlMonth13 : List Char :=
  "https://www.evertkwok.nl/wp-content/uploads/2020/13/05/a.jpg".toList

/-- URL whose date tokens carry the out-of-range year 1990. -/
def urlYear1990 : List Char :=
  "https://www.evertkwok.nl/wp-content/uploads/1990/05/17/a.jpg".toList

/-- C3: the stable specificity sort tries the patterns in decreasing
specificity; date extraction equals the spec-side first-valid-pattern search
with current-date fallback; any returned date that is not the fallback has a
year in `[2000, currentYear + 1]`; a URL with both a full and a bare date
segment yields the full-precision date; month 13 is rejected (the date falls
back to the year-only pattern, January 1), and year 1990 is rejected entirely
(current date). -/
theorem extractDateFromUrl_spec_correct :
    sortedPatterns = specOrderedPatterns ∧
    specOrderedPatterns.map (fun p => p.specificity) = [3, 3, 3, 3, 3, 2, 1] ∧
    (∀ (url : List Char) (now : JSDate),
      extractDateFromUrl url now = extractDateSpec url now) ∧
    (∀ (url : List Char) (now : JSDate),
      extractDateFromUrl url now = now ∨
        (2000 ≤ (extractDateFromUrl url now).year ∧
          (extractDateFromUrl url now).year ≤ now.year + 1)) ∧
    extractDateFromUrl urlFullAndBare nowRun = ⟨2020, 4, 17⟩ ∧
    extractDateFromUrl urlMonth13 nowRun = ⟨2020, 0, 1⟩ ∧
    extractDateFromUrl urlYear1990 nowRun = nowRun ∧
    (extractDateFromUrl urlYear1990 nowRun).year ≠ 1990 := by
  refine ⟨rfl, rfl, fun url now => ?_, fun url now => ?_, by decide, by decide, by decide, by decide⟩
  · show tryPatterns url now sortedPatterns = (firstValidDate url now specOrderedPatterns).getD now
    rw [tryPatterns_eq_firstValidDate]
    rfl
  · exact tryPatterns_year_valid url now sortedPatterns

/-- C4: if every HTTP attempt fails, `fetchWithRetry` makes exactly the three
configured attempts and rethrows the third error; whenever the fetch (after
its retries) or candidate extraction errors, `scrapeCartoons` — a total
function, so no error escapes the scraping stage — returns the fallback
generator's synthetic list, which always has the fixed non-zero cardinality
8. -/
theorem scrapeCartoons_fallback_on_error :
    (∀ e : Nat → Nat,
      fetchWithRetry (fun i => .error (e i)) maxRetries 1 = .error (e 3)) ∧
    (∀ (attempts : Nat → Except Nat (List Char))
        (extractCandidates : List Char → Except Nat (List Cartoon))
        (now : JSDate) (rnd : Nat → Nat) (err : Nat),
      fetchWithRetry attempts maxRetries 1 = .error err →
        scrapeCartoons attempts extractCandidates now rnd = getDemoData now rnd) ∧
    (∀ (attempts : Nat → Except Nat (List Char))
        (extractCandidates : List Char → Except Nat (List Cartoon))
        (now : JSDate) (rnd : Nat → Nat) (html : List Char) (err : Nat),
      fetchWithRetry attempts maxRetries 1 = .ok html →
        extractCandidates html = .error err →
          scrapeCartoons attempts extractCandidates now rnd = getDemoData now rnd) ∧
    (∀ (now : JSDate) (rnd : Nat → Nat), (getDemoData now rnd).length = 8) := by
  refine ⟨fun e => rfl, ?_, ?_, ?_⟩
  · intro attempts extractCandidates now rnd err hfetch
    unfold scrapeCartoons
    rw [hfetch]
  · intro attempts extractCandidates now rnd html err hfetch hext
    unfold scrapeCartoons
    rw [hfetch]
    dsimp only
    rw [hext]
  · intro now rnd
    unfold getDemoData sortCartoons
    rw [List.length_insertionSort, List.length_map, List.enum_length]
    rfl

theorem scrapeCartoons_fallback_on_error_witness :
    scrapeCartoons (fun _ => .error 7) (fun _ => .ok []) nowRun (fun _ => 4) =
      getDemoData nowRun (fun _ => 4) ∧
    (getDemoData nowRun (fun _ => 4)).length = 8 :=
  ⟨scrapeCartoons_fallback_on_error.2.1 (fun _ => .error 7) (fun _ => .ok [])
      nowRun (fun _ => 4) 7 rfl,
   scrapeCartoons_fallback_on_error.2.2.2 nowRun (fun _ => 4)⟩

theorem cleanTitle_length_le (t : List Char) : (cleanTitle t).length ≤ 80 :=
  List.length_take_le 80 _

theorem generateTitleFromUrl_length_le (src : Option (List Char)) :
    (generateTitleFromUrl src).length ≤ 80 := by
  cases src with
  | none => decide
  | some u =>
    unfold generateTitleFromUrl
    by_cases hu : u.isEmpty
    · simp only [hu, if_true]
      decide
    · simp only [hu, if_false, Bool.false_eq_true]
      split
      · decide
      · exact le_trans (List.length_take_le 50 _) (by omega)

theorem pickTitle_length_le (src : Option (List Char)) :
    ∀ cands : List (List Char), (pickTitle src cands).length ≤ 80 := by
  intro cands
  induction cands with
  | nil => exact generateTitleFromUrl_length_le src
  | cons c cs ih =>
    unfold pickTitle
    split
    · exact cleanTitle_length_le c
    · exact ih

/-- C6 (amended): the cleaned title never exceeds 80 characters.  The
4-character lower bound of the original claim concerns the raw candidate
before cleaning; cleaning can strip it below 4 characters, even to empty. -/
theorem extractTitle_length_le (candidates : List (List Char)) (src : Option (List Char)) :
    (extractTitle candidates src).length ≤ 80 :=
  pickTitle_length_le src _

theorem extractTitle_length_counterexample :
    ¬ (4 ≤ (extractTitle ["@@@@".toList] none).length) := by decide

theorem descriptionTemplate_length (t : List Char) :
    (descriptionTemplate t).length = 155 + t.length := by
  unfold descriptionTemplate
  rw [List.length_append, List.length_append, List.length_map]
  have h1 : ("Educational cartoon by Evert Kwok featuring ".toList).length = 44 := by decide
  have h2 : (". Making complex scientific and mathematical concepts accessible through visual humor and clever illustrations.".toList).length = 111 := by decide
  omega

theorem pickDescription_length (t : List Char) (ht : t.length ≤ 80) :
    ∀ cands : List (List Char),
      11 ≤ (pickDescription t cands).length ∧ (pickDescription t cands).length ≤ 235 := by
  intro cands
  induction cands with
  | nil =>
    unfold pickDescription
    rw [descriptionTemplate_length]
    omega
  | cons c cs ih =>
    by_cases ha : acceptDescription c = true
    · have hlen := ha
      simp only [acceptDescription, Bool.and_eq_true, decide_eq_true_eq] at hlen
      obtain ⟨⟨⟨h10, h500⟩, _⟩, _⟩ := hlen
      unfold pickDescription
      rw [if_pos ha]
      by_cases h200 : 200 < c.length
      · rw [if_pos (by simpa using h200)]
        rw [List.length_append, List.length_take]
        have : ("...".toList).length = 3 := by decide
        omega
      · rw [if_neg (by simpa using h200)]
        rw [List.length_append, List.length_take]
        simp only [List.length_nil]
        omega
    · unfold pickDescription
      rw [if_neg ha]
      exact ih

/-- C5 (amended): the derived description is between 11 and 235 characters.
An accepted candidate longer than 200 characters is cut at 200 and the
3-character ellipsis marker is appended, so it can reach 203 characters
(the original 200-character bound fails); the synthesized fallback sentence
is 155 characters plus the lowercased title, so it can reach 235. -/
theorem extractDescription_length_bounds (candidates : List (List Char))
    (titleCandidates : List (List Char)) (src : Option (List Char)) :
    11 ≤ (extractDescription candidates titleCandidates src).length ∧
      (extractDescription candidates titleCandidates src).length ≤ 235 :=
  pickDescription_length _ (pickTitle_length_le src _) _

set_option maxRecDepth 8000 in
theorem extractDescription_length_counterexample :
    ¬ ((extractDescription [List.replicate 250 'a'] [] none).length ≤ 200) := by decide

/-- The filename URL of the spec's title-fallback example. -/
def qmUrl : List Char :=
  "https://www.evertkwok.nl/wp-content/uploads/2019/07/quantum-mechanics.jpg".toList

/-- C7 (amended): with no alt/title/caption metadata the derived title is the
underscore/hyphen-normalized, camel-case-split form of the URL's filename
with only its first character capitalized: `quantum-mechanics.jpg` yields
`Quantum mechanics` (not `Quantum Mechanics`). -/
theorem extractTitle_url_fallback :
    (∀ src : Option (List Char), extractTitle [] src = generateTitleFromUrl src) ∧
    extractTitle [] (some qmUrl) = "Quantum mechanics".toList :=
  ⟨fun _ => rfl, by decide⟩

theorem extractTitle_url_fallback_counterexample :
    extractTitle [] (some qmUrl) = "Quantum mechanics".toList ∧
    extractTitle [] (some qmUrl) ≠ "Quantum Mechanics".toList := by decide

theorem daysInMonth_bounds (y m : Int) : 28 ≤ daysInMonth y m ∧ daysInMonth y m ≤ 31 := by
  unfold daysInMonth
  split_ifs <;> omega

theorem daysInMonth_dec (y : Int) : daysInMonth y 11 = 31 := by
  simp [daysInMonth]

theorem normDays_id (fuel : Nat) (y m d : Int) (h1 : 1 ≤ d) (h2 : d ≤ daysInMonth y m) :
    normDays (fuel + 1) y m d = ⟨y, m, d⟩ := by
  unfold normDays
  rw [if_neg (by omega), if_neg (by omega)]

theorem normDays_step (fuel : Nat) (y m d : Int) (h0 : 0 ≤ m) (h11 : m ≤ 11)
    (h1 : 1 ≤ d) (h31 : d ≤ 31) :
    ∃ m2 d2, normDays (fuel + 2) y m d = ⟨y, m2, d2⟩ ∧
      0 ≤ m2 ∧ m2 ≤ 11 ∧ 1 ≤ d2 ∧ d2 ≤ 31 := by
  by_cases hle : d ≤ daysInMonth y m
  · exact ⟨m, d, normDays_id (fuel + 1) y m d h1 hle, h0, h11, h1, h31⟩
  · push_neg at hle
    have hdec := daysInMonth_dec y
    have hm11 : m ≠ 11 := by
      intro he; rw [he, hdec] at hle; omega
    have hb := daysInMonth_bounds y m
    have hb2 := daysInMonth_bounds y (m + 1)
    refine ⟨m + 1, d - daysInMonth y m, ?_, by omega, by omega, by omega, by omega⟩
    show normDays ((fuel + 1) + 1) y m d = _
    unfold normDays
    rw [if_neg (by omega), if_pos (by omega)]
    dsimp only
    rw [if_neg hm11, if_neg hm11]
    exact normDays_id fuel y (m + 1) _ (by omega) (by omega)

theorem jsNorm_spec (y m d : Int) (h1 : 1 ≤ d) (h31 : d ≤ 31) :
    ∃ m2 d2, jsNorm y m d = ⟨(y * 12 + m) / 12, m2, d2⟩ ∧
      0 ≤ m2 ∧ m2 ≤ 11 ∧ 1 ≤ d2 ∧ d2 ≤ 31 := by
  have hm0 : 0 ≤ (y * 12 + m) % 12 := Int.emod_nonneg _ (by norm_num)
  have hm1 : (y * 12 + m) % 12 < 12 := Int.emod_lt_of_pos _ (by norm_num)
  have hstep := normDays_step 38 ((y * 12 + m) / 12) ((y * 12 + m) % 12) d hm0 (by omega) h1 h31
  simpa [jsNorm, normFuel] using hstep

theorem jsSetDate_id (y m d0 r : Int) (h0 : 0 ≤ m) (h11 : m ≤ 11)
    (h1 : 1 ≤ r) (h28 : r ≤ 28) :
    jsSetDate ⟨y, m, d0⟩ r = ⟨y, m, r⟩ := by
  have he1 : (y * 12 + m) / 12 = y := by omega
  have he2 : (y * 12 + m) % 12 = m := by omega
  have hb := daysInMonth_bounds y m
  show normDays normFuel ((y * 12 + m) / 12) ((y * 12 + m) % 12) r = _
  rw [he1, he2]
  exact normDays_id 39 y m r h1 (by omega)

theorem jsSetMonth_spec (now : JSDate) (k : Int) (hd1 : 1 ≤ now.day) (hd31 : now.day ≤ 31) :
    ∃ m2 d2, jsSetMonth now (now.month - k) =
      ⟨now.year + (now.month - k) / 12, m2, d2⟩ ∧
      0 ≤ m2 ∧ m2 ≤ 11 ∧ 1 ≤ d2 ∧ d2 ≤ 31 := by
  obtain ⟨m2, d2, heq, hq0, hq11, hr1, hr31⟩ :=
    jsNorm_spec now.year (now.month - k) now.day hd1 hd31
  refine ⟨m2, d2, ?_, hq0, hq11, hr1, hr31⟩
  rw [show jsSetMonth now (now.month - k) = jsNorm now.year (now.month - k) now.day from rfl, heq]
  congr 1
  omega

theorem demos_monthsAgo_bounds :
    ∀ p ∈ demos.enum, 0 ≤ p.2.monthsAgo ∧ p.2.monthsAgo ≤ 48 := by decide

/-- C8 (amended): every fallback item's date is obtained by shifting the
current date's month back by that entry's `monthsAgo` through calendar
normalization — which rolls into the following month when the current
day-of-month exceeds the target month's length, so the month can land one
later than plain month subtraction — and then replacing the day by the
bounded random value in `[1, 28]`.  Consequently (for `monthsAgo ≤ 48` and a
current year of at least 2004) the year lies in
`[now.year - 4, now.year] ⊆ [2000, now.year + 1]`, and the returned list is
sorted descending by date. -/
theorem getDemoData_bounds (now : JSDate) (rnd : Nat → Nat)
    (hm0 : 0 ≤ now.month) (hm11 : now.month ≤ 11)
    (hd1 : 1 ≤ now.day) (hd31 : now.day ≤ 31)
    (hy : 2004 ≤ now.year) (hr : ∀ i, rnd i ≤ 27) :
    (∀ c ∈ getDemoData now rnd,
      now.year - 4 ≤ c.date.year ∧ c.date.year ≤ now.year ∧
      2000 ≤ c.date.year ∧ c.date.year ≤ now.year + 1 ∧
      0 ≤ c.date.month ∧ c.date.month ≤ 11 ∧
      1 ≤ c.date.day ∧ c.date.day ≤ 28) ∧
    (getDemoData now rnd).Pairwise (fun a b => dateKey b.date ≤ dateKey a.date) := by
  constructor
  · intro c hc
    unfold getDemoData sortCartoons at hc
    rw [List.mem_insertionSort] at hc
    obtain ⟨p, hp, rfl⟩ := List.mem_map.mp hc
    obtain ⟨hk0, hk48⟩ := demos_monthsAgo_bounds p hp
    obtain ⟨m2, d2, heq, hq0, hq11, _, _⟩ :=
      jsSetMonth_spec now p.2.monthsAgo hd1 hd31
    have hri := hr p.1
    have hsd := jsSetDate_id (now.year + (now.month - p.2.monthsAgo) / 12) m2 d2
      ((rnd p.1 : Int) + 1) hq0 hq11 (by omega) (by omega)
    dsimp only
    rw [heq, hsd]
    dsimp only
    omega
  · exact List.sorted_insertionSort laterDate _

theorem getDemoData_bounds_witness :
    (getDemoData ⟨2026, 9, 11⟩ (fun _ => 4)).Pairwise
      (fun a b => dateKey b.date ≤ dateKey a.date) :=
  (getDemoData_bounds ⟨2026, 9, 11⟩ (fun _ => 4) (by norm_num) (by norm_num)
    (by norm_num) (by norm_num) (by norm_num) (fun i => by norm_num)).2

/-- The date the claim's words prescribe for a fallback item: the current
date with the month shifted back by `k` by pure month arithmetic and the day
replaced by `r`. -/
def claimMinusMonths (now : JSDate) (k r : Int) : JSDate :=
  ⟨(now.year * 12 + now.month - k) / 12, (now.year * 12 + now.month - k) % 12, r⟩

theorem getDemoData_monthShift_counterexample :
    (getDemoData ⟨2026, 7, 31⟩ (fun _ => 4)).head?.map (fun c => (c.title, c.date)) =
      some ("Quantum Mechanics Made Simple".toList, ⟨2026, 6, 5⟩) ∧
    demos.head?.map (fun e => (e.title, e.monthsAgo)) =
      some ("Quantum Mechanics Made Simple".toList, 2) ∧
    claimMinusMonths ⟨2026, 7, 31⟩ 2 5 = ⟨2026, 5, 5⟩ ∧
    (⟨2026, 6, 5⟩ : JSDate) ≠ claimMinusMonths ⟨2026, 7, 31⟩ 2 5 := by decide

theorem replaceChar_append (c : Char) (r s t : List Char) :
    replaceChar c r (s ++ t) = replaceChar c r s ++ replaceChar c r t := by
  induction s with
  | nil => rfl
  | cons x xs ih => simp [replaceChar, ih]

theorem escapeChars_cons (x : Char) (xs : List Char) :
    escapeChars (x :: xs) = xmlEntity x ++ escapeChars xs := by
  show escapeChars ([x] ++ xs) = _
  unfold escapeChars
  rw [replaceChar_append, replaceChar_append, replaceChar_append, replaceChar_append,
    replaceChar_append]
  congr 1
  by_cases h1 : x = '&'
  · subst h1; decide
  · by_cases h2 : x = '<'
    · subst h2; decide
    · by_cases h3 : x = '>'
      · subst h3; decide
      · by_cases h4 : x = '"'
        · subst h4; decide
        · by_cases h5 : x = aposChar
          · subst h5; decide
          · simp [replaceChar, xmlEntity, h1, h2, h3, h4, h5]

theorem escapeChars_flatten (s : List Char) :
    escapeChars s = (s.map xmlEntity).flatten := by
  induction s with
  | nil => rfl
  | cons x xs ih => rw [escapeChars_cons, List.map_cons, List.flatten_cons, ih]

theorem xmlEntity_length_pos (c : Char) : 1 ≤ (xmlEntity c).length := by
  unfold xmlEntity
  split_ifs <;> simp

theorem amp_mem_escapeChars (s : List Char) (h : '&' ∈ s) : '&' ∈ escapeChars s := by
  induction s with
  | nil => cases h
  | cons x xs ih =>
    rw [escapeChars_cons]
    rcases List.mem_cons.mp h with rfl | hxs
    · exact List.mem_append_left _ (by decide)
    · exact List.mem_append_right _ (ih hxs)

theorem length_le_escapeChars (s : List Char) : s.length ≤ (escapeChars s).length := by
  induction s with
  | nil => exact le_refl _
  | cons x xs ih =>
    rw [escapeChars_cons, List.length_append, List.length_cons]
    have := xmlEntity_length_pos x
    omega

theorem length_lt_escapeChars (s : List Char) (h : '&' ∈ s) :
    s.length < (escapeChars s).length := by
  induction s with
  | nil => cases h
  | cons x xs ih =>
    rw [escapeChars_cons, List.length_append, List.length_cons]
    rcases List.mem_cons.mp h with rfl | hxs
    · have h5 : (xmlEntity '&').length = 5 := by decide
      have := length_le_escapeChars xs
      omega
    · have := ih hxs
      have := xmlEntity_length_pos x
      omega

/-- C9: one pass of `escapeXml` rewrites each character through the
five-entry entity table (so each of `& < > " '` becomes its entity), and the
function is not idempotent: for any string containing `&`, escaping twice
differs from escaping once — in particular `&` escapes to `&amp;` and twice
to `&amp;amp;`. -/
theorem escapeXml_not_idempotent :
    (∀ s : List Char, '&' ∈ s →
      escapeXml (.str (escapeXml (.str s))) ≠ escapeXml (.str s)) ∧
    escapeXml (.str ['&']) = "&amp;".toList ∧
    escapeXml (.str (escapeXml (.str ['&']))) = "&amp;amp;".toList ∧
    (∀ s : List Char, escapeChars s = (s.map xmlEntity).flatten) := by
  refine ⟨?_, by decide, by decide, escapeChars_flatten⟩
  intro s hs
  have hne : ¬ s.isEmpty = true := by
    cases s with
    | nil => cases hs
    | cons a l => simp
  have h1 : escapeXml (.str s) = escapeChars s := by simp [escapeXml, hne]
  have hmem : '&' ∈ escapeChars s := amp_mem_escapeChars s hs
  have hne2 : ¬ (escapeChars s).isEmpty = true := by
    cases hcc : escapeChars s with
    | nil => rw [hcc] at hmem; cases hmem
    | cons a l => simp
  have h2 : escapeXml (.str (escapeChars s)) = escapeChars (escapeChars s) := by
    simp [escapeXml, hne2]
  rw [h1, h2]
  intro heq
  have hlt2 := length_lt_escapeChars (escapeChars s) hmem
  rw [heq] at hlt2
  exact lt_irrefl _ hlt2

theorem escapeXml_not_idempotent_witness :
    escapeXml (.str (escapeXml (.str "a&b".toList))) ≠ escapeXml (.str "a&b".toList) :=
  escapeXml_not_idempotent.1 "a&b".toList (by decide)

/-- C10: `escapeXml` is total over missing input: `null`, `undefined` and the
empty string all map to the empty string instead of failing, so feed
rendering cannot fail on an item with a missing title, description or URL
field. -/
theorem escapeXml_total_on_missing :
    escapeXml .null = [] ∧ escapeXml .undef = [] ∧ escapeXml (.str []) = [] :=
  ⟨rfl, rfl, rfl⟩
